import Mathlib

/-!
Verification development for the key vault (src/key_loader.py) and the
browser-signing relay (src/imx_wallet.py) of py-gods-unchained-market.

Bytes and byte strings are modelled as `List Nat` with entries below 256.
The cryptographic primitives the code calls as black boxes (AES block
operations via PyCryptodome, PBKDF2, eth_get_address) are gathered in a
`CryptoPrims` structure carrying exactly the contracts the library
documents: the block decryption inverts block encryption on 16-byte
blocks, block encryption maps 16-byte blocks to 16-byte blocks of bytes.
-/

namespace GUMarket

/-- Bytewise exclusive or of two byte strings, truncating to the shorter. -/
def xorBytes (a b : List Nat) : List Nat := List.zipWith Nat.xor a b

/-- Python slice `l[-n:]` for nonnegative `n` (note `-0 = 0`, so `l[-0:]` is all of `l`). -/
def pySliceFromNeg (l : List Nat) (n : Nat) : List Nat :=
  if n = 0 then l else l.drop (l.length - n)

/-- Python slice `l[:-n]` for nonnegative `n` (note `-0 = 0`, so `l[:-0]` is empty). -/
def pySliceToNeg (l : List Nat) (n : Nat) : List Nat :=
  if n = 0 then [] else l.take (l.length - n)

/-- Python `int.to_bytes(len, "big")`: big-endian digits base 256, most
significant first.  Total function; the claims that use it carry the
hypothesis `n < 256 ^ len` under which Python does not overflow. -/
def toBytesBE : Nat → Nat → List Nat
  | 0, _ => []
  | len + 1, n => toBytesBE len (n / 256) ++ [n % 256]

/-- Python `int.from_bytes(l, "big")`. -/
def fromBytesBE (l : List Nat) : Nat := l.foldl (fun acc b => acc * 256 + b) 0

theorem length_toBytesBE (len n : Nat) : (toBytesBE len n).length = len := by
  induction len generalizing n with
  | zero => rfl
  | succ k ih => simp [toBytesBE, ih]

theorem toBytesBE_lt (len n : Nat) : ∀ x ∈ toBytesBE len n, x < 256 := by
  induction len generalizing n with
  | zero => intro x hx; simp [toBytesBE] at hx
  | succ k ih =>
    intro x hx
    simp only [toBytesBE, List.mem_append, List.mem_singleton] at hx
    rcases hx with hx | hx
    · exact ih _ x hx
    · subst hx; exact Nat.mod_lt _ (by omega)

theorem fromBytesBE_append (l : List Nat) (b : Nat) :
    fromBytesBE (l ++ [b]) = fromBytesBE l * 256 + b := by
  simp [fromBytesBE, List.foldl_append]

theorem fromBytesBE_toBytesBE (len n : Nat) (h : n < 256 ^ len) :
    fromBytesBE (toBytesBE len n) = n := by
  induction len generalizing n with
  | zero =>
    simp [toBytesBE, fromBytesBE]
    omega
  | succ k ih =>
    have hdiv : n / 256 < 256 ^ k := by
      rw [Nat.div_lt_iff_lt_mul (by omega)]
      calc n < 256 ^ (k + 1) := h
        _ = 256 ^ k * 256 := by ring
    rw [toBytesBE, fromBytesBE_append, ih _ hdiv]
    omega

/-! ### Base64 (RFC 4648 with padding), as used by `b64encode`/`b64decode`
from Python base64.  The decoder is modelled on well-formed inputs; every
theorem that decodes an arbitrary blob is conditioned on the decoder
succeeding. -/

/-- Value of base64 digit `n` (0..63) as an ASCII code. -/
def b64chr (n : Nat) : Nat :=
  if n < 26 then 65 + n
  else if n < 52 then 97 + (n - 26)
  else if n < 62 then 48 + (n - 52)
  else if n = 62 then 43 else 47

/-- Inverse of `b64chr`: ASCII code back to a 6-bit value, none for
codes outside the base64 alphabet. -/
def b64val (c : Nat) : Option Nat :=
  if 65 ≤ c ∧ c ≤ 90 then some (c - 65)
  else if 97 ≤ c ∧ c ≤ 122 then some (26 + (c - 97))
  else if 48 ≤ c ∧ c ≤ 57 then some (52 + (c - 48))
  else if c = 43 then some 62
  else if c = 47 then some 63
  else none

/-- Python `base64.b64encode` on a byte string: groups of three bytes
become four alphabet characters; a final group of one or two bytes is
padded with `=` (ASCII 61). -/
def b64encode : List Nat → List Nat
  | a :: b :: c :: rest =>
    b64chr (a / 4) :: b64chr (a % 4 * 16 + b / 16) ::
      b64chr (b % 16 * 4 + c / 64) :: b64chr (c % 64) :: b64encode rest
  | [a, b] => [b64chr (a / 4), b64chr (a % 4 * 16 + b / 16), b64chr (b % 16 * 4), 61]
  | [a] => [b64chr (a / 4), b64chr (a % 4 * 16), 61, 61]
  | [] => []

/-- Python `base64.b64decode` on well-formed input: length a multiple of
four, alphabet characters, `=` padding only at the end.  Inputs Python
would reject (and the lenient discarding of foreign characters, which no
claim exercises) give `none`. -/
def b64decode : List Nat → Option (List Nat)
  | [] => some []
  | c1 :: c2 :: c3 :: c4 :: rest =>
    match b64val c1, b64val c2 with
    | some v1, some v2 =>
      if c3 = 61 then
        if c4 = 61 ∧ rest = [] then some [v1 * 4 + v2 / 16] else none
      else
        match b64val c3 with
        | some v3 =>
          if c4 = 61 then
            if rest = [] then some [v1 * 4 + v2 / 16, v2 % 16 * 16 + v3 / 4] else none
          else
            match b64val c4 with
            | some v4 =>
              (b64decode rest).map
                (fun d => (v1 * 4 + v2 / 16) :: (v2 % 16 * 16 + v3 / 4) ::
                  (v3 % 4 * 64 + v4) :: d)
            | none => none
        | none => none
    | _, _ => none
  | _ => none

theorem b64val_b64chr_fin : ∀ v : Fin 64, b64val (b64chr v.val) = some v.val := by decide

theorem b64chr_ne_61_fin : ∀ v : Fin 64, b64chr v.val ≠ 61 := by decide

theorem b64val_b64chr (v : Nat) (h : v < 64) : b64val (b64chr v) = some v :=
  b64val_b64chr_fin ⟨v, h⟩

theorem b64chr_ne_61 (v : Nat) (h : v < 64) : b64chr v ≠ 61 :=
  b64chr_ne_61_fin ⟨v, h⟩

theorem b64decode_b64encode (l : List Nat) (hl : ∀ x ∈ l, x < 256) :
    b64decode (b64encode l) = some l := by
  induction l using b64encode.induct with
  | case1 a b c rest ih =>
    have ha : a < 256 := hl a (by simp)
    have hb : b < 256 := hl b (by simp)
    have hc : c < 256 := hl c (by simp)
    have h1 : a / 4 < 64 := by omega
    have h2 : a % 4 * 16 + b / 16 < 64 := by omega
    have h3 : b % 16 * 4 + c / 64 < 64 := by omega
    have h4 : c % 64 < 64 := by omega
    have ihr : b64decode (b64encode rest) = some rest := by
      refine ih (fun x hx => hl x ?_); simp [hx]
    rw [b64encode, b64decode]
    simp only [b64val_b64chr _ h1, b64val_b64chr _ h2, b64val_b64chr _ h3,
      b64val_b64chr _ h4, if_neg (b64chr_ne_61 _ h3), if_neg (b64chr_ne_61 _ h4),
      ihr, Option.map_some]
    have e1 : a / 4 * 4 + (a % 4 * 16 + b / 16) / 16 = a := by omega
    have e2 : (a % 4 * 16 + b / 16) % 16 * 16 + (b % 16 * 4 + c / 64) / 4 = b := by omega
    have e3 : (b % 16 * 4 + c / 64) % 4 * 64 + c % 64 = c := by omega
    rw [e1, e2, e3]
    simp
  | case2 a b =>
    have ha : a < 256 := hl a (by simp)
    have hb : b < 256 := hl b (by simp)
    have h1 : a / 4 < 64 := by omega
    have h2 : a % 4 * 16 + b / 16 < 64 := by omega
    have h3 : b % 16 * 4 < 64 := by omega
    rw [b64encode, b64decode]
    simp only [b64val_b64chr _ h1, b64val_b64chr _ h2, b64val_b64chr _ h3,
      if_neg (b64chr_ne_61 _ h3), if_pos rfl, if_pos (And.intro rfl rfl)]
    have e1 : a / 4 * 4 + (a % 4 * 16 + b / 16) / 16 = a := by omega
    have e2 : (a % 4 * 16 + b / 16) % 16 * 16 + b % 16 * 4 / 4 = b := by omega
    rw [e1, e2]
    simp
  | case3 a =>
    have ha : a < 256 := hl a (by simp)
    have h1 : a / 4 < 64 := by omega
    have h2 : a % 4 * 16 < 64 := by omega
    rw [b64encode, b64decode]
    simp only [b64val_b64chr _ h1, b64val_b64chr _ h2, if_pos rfl]
    have e1 : a / 4 * 4 + a % 4 * 16 / 16 = a := by omega
    rw [e1]
    simp
  | case4 => decide

/-! ### Library primitives used as black boxes

The source calls PyCryptodome AES, PBKDF2 and the IMXlib address
derivation as opaque library functions.  They are collected in a
structure whose proof fields are exactly the contracts those libraries
document and the proofs use: the AES block decryption inverts the block
encryption on 16-byte blocks, and the block encryption maps 16-byte
blocks of bytes to 16-byte blocks of bytes. -/

structure CryptoPrims where
  blockEnc : List Nat → List Nat → List Nat
  blockDec : List Nat → List Nat → List Nat
  kdf : List Nat → List Nat → List Nat
  addrOf : Nat → Nat
  blockDec_blockEnc : ∀ key b, b.length = 16 → blockDec key (blockEnc key b) = b
  blockEnc_length : ∀ key b, b.length = 16 → (blockEnc key b).length = 16
  blockEnc_lt : ∀ key b, (∀ x ∈ b, x < 256) → ∀ x ∈ blockEnc key b, x < 256

/-! ### Splitting a byte string into 16-byte cipher blocks -/

def toBlocksAux : Nat → List Nat → List (List Nat)
  | _, [] => []
  | 0, _ :: _ => []
  | fuel + 1, a :: l => (a :: l).take 16 :: toBlocksAux fuel ((a :: l).drop 16)

/-- Consecutive 16-byte chunks of a byte string (the last chunk may be
shorter when the length is not a multiple of 16). -/
def toBlocks (l : List Nat) : List (List Nat) := toBlocksAux l.length l

theorem toBlocksAux_nil (f : Nat) : toBlocksAux f [] = [] := by
  cases f <;> rfl

theorem toBlocksAux_congr (f g : Nat) (l : List Nat) (hf : l.length ≤ f)
    (hg : l.length ≤ g) : toBlocksAux f l = toBlocksAux g l := by
  induction f generalizing g l with
  | zero =>
    have : l = [] := List.length_eq_zero.mp (by omega)
    subst this
    simp [toBlocksAux_nil]
  | succ f ih =>
    cases l with
    | nil => simp [toBlocksAux_nil]
    | cons a l =>
      cases g with
      | zero => simp at hg
      | succ g =>
        rw [toBlocksAux, toBlocksAux]
        have hc : (a :: l).length = l.length + 1 := List.length_cons a l
        have hd : ((a :: l).drop 16).length ≤ f := by
          rw [List.length_drop]; omega
        have hd2 : ((a :: l).drop 16).length ≤ g := by
          rw [List.length_drop]; omega
        rw [ih _ _ hd hd2]

theorem toBlocks_cons16 (b rest : List Nat) (hb : b.length = 16) :
    toBlocks (b ++ rest) = b :: toBlocks rest := by
  cases b with
  | nil => simp at hb
  | cons x xs =>
    show toBlocksAux (x :: xs ++ rest).length (x :: xs ++ rest) = _
    have hlen : (x :: xs ++ rest).length = (15 + rest.length) + 1 := by
      simp at hb ⊢; omega
    rw [hlen, List.cons_append, toBlocksAux]
    rw [← List.cons_append]
    have ht : (x :: xs ++ rest).take 16 = x :: xs := by
      rw [List.take_append_of_le_length (by simp at hb ⊢; omega),
        List.take_of_length_le (by omega)]
    have hd : (x :: xs ++ rest).drop 16 = rest := by
      rw [List.drop_append_of_le_length (by simp at hb ⊢; omega),
        List.drop_eq_nil_of_le (by omega), List.nil_append]
    rw [ht, hd, toBlocksAux_congr (15 + rest.length) rest.length rest (by omega) le_rfl]
    rfl

theorem flatten_toBlocksAux (f : Nat) (l : List Nat) (h : l.length ≤ f) :
    (toBlocksAux f l).flatten = l := by
  induction f generalizing l with
  | zero =>
    have : l = [] := List.length_eq_zero.mp (by omega)
    subst this
    rfl
  | succ f ih =>
    cases l with
    | nil => rfl
    | cons a l =>
      rw [toBlocksAux, List.flatten_cons]
      rw [ih _ (by simp only [List.length_drop, List.length_cons] at h ⊢; omega)]
      exact List.take_append_drop _ _

theorem flatten_toBlocks (l : List Nat) : (toBlocks l).flatten = l :=
  flatten_toBlocksAux l.length l le_rfl

theorem toBlocks_flatten (bs : List (List Nat)) (h : ∀ b ∈ bs, b.length = 16) :
    toBlocks bs.flatten = bs := by
  induction bs with
  | nil => rfl
  | cons b bs ih =>
    rw [List.flatten_cons, toBlocks_cons16 b bs.flatten (h b (by simp)),
      ih (fun x hx => h x (by simp [hx]))]

/-! ### CBC mode, chaining 16-byte blocks from the IV -/

theorem xorBytes_lt (a b : List Nat) (ha : ∀ x ∈ a, x < 256) (hb : ∀ x ∈ b, x < 256) :
    ∀ x ∈ xorBytes a b, x < 256 := by
  induction a generalizing b with
  | nil => intro x hx; simp [xorBytes] at hx
  | cons y ys ih =>
    intro x hx
    cases b with
    | nil => simp [xorBytes] at hx
    | cons z zs =>
      simp only [xorBytes, List.zipWith_cons_cons, List.mem_cons] at hx
      rcases hx with hx | hx
      · subst hx
        have h1 : y < 2 ^ 8 := ha y (by simp)
        have h2 : z < 2 ^ 8 := hb z (by simp)
        exact Nat.xor_lt_two_pow h1 h2
      · exact ih zs (fun u hu => ha u (by simp [hu])) (fun u hu => hb u (by simp [hu])) x hx

theorem xorBytes_cancel (a b : List Nat) (h : a.length = b.length) :
    xorBytes (xorBytes a b) b = a := by
  induction a generalizing b with
  | nil => cases b <;> rfl
  | cons x xs ih =>
    cases b with
    | nil => simp at h
    | cons y ys =>
      show ((x ^^^ y) ^^^ y) :: xorBytes (xorBytes xs ys) ys = x :: xs
      rw [Nat.xor_cancel_right, ih ys (by simpa using h)]

theorem length_xorBytes (a b : List Nat) : (xorBytes a b).length = min a.length b.length :=
  List.length_zipWith _ _ _

def cbcEncBlocks (c : CryptoPrims) (key : List Nat) : List Nat → List (List Nat) → List (List Nat)
  | _, [] => []
  | prev, b :: bs =>
    c.blockEnc key (xorBytes b prev) :: cbcEncBlocks c key (c.blockEnc key (xorBytes b prev)) bs

def cbcDecBlocks (c : CryptoPrims) (key : List Nat) : List Nat → List (List Nat) → List (List Nat)
  | _, [] => []
  | prev, b :: bs => xorBytes (c.blockDec key b) prev :: cbcDecBlocks c key b bs

/-- CBC encryption of a full byte string, as performed by
`AES.new(key, AES.MODE_CBC, nonce).encrypt`. -/
def cbcEncrypt (c : CryptoPrims) (key iv data : List Nat) : List Nat :=
  (cbcEncBlocks c key iv (toBlocks data)).flatten

/-- CBC decryption of a full byte string, as performed by
`AES.new(key, AES.MODE_CBC, nonce).decrypt`. -/
def cbcDecrypt (c : CryptoPrims) (key iv data : List Nat) : List Nat :=
  (cbcDecBlocks c key iv (toBlocks data)).flatten

theorem cbcDecBlocks_cbcEncBlocks (c : CryptoPrims) (key : List Nat) (bs : List (List Nat))
    (prev : List Nat) (hp : prev.length = 16) (hbs : ∀ b ∈ bs, b.length = 16) :
    cbcDecBlocks c key prev (cbcEncBlocks c key prev bs) = bs := by
  induction bs generalizing prev with
  | nil => rfl
  | cons b bs ih =>
    have hb : b.length = 16 := hbs b (by simp)
    have hxlen : (xorBytes b prev).length = 16 := by
      rw [length_xorBytes, hb, hp]
      exact Nat.min_self 16
    rw [cbcEncBlocks, cbcDecBlocks, c.blockDec_blockEnc key _ hxlen,
      xorBytes_cancel b prev (by omega)]
    congr 1
    exact ih _ (c.blockEnc_length key _ hxlen) (fun x hx => hbs x (by simp [hx]))

/-! ### key_loader.py -/

/-- Failure modes of `decrypt` in key_loader.py.  `incorrectKey` is the
explicit `ValueError("Incorrect Key.")` the spec calls IntegrityError;
the others are raised by the libraries it calls before the padding
check runs. -/
inductive DecryptError where
  /-- binascii.Error from `b64decode` on malformed input. -/
  | badBase64
  /-- ValueError from `AES.new` when the sliced IV is shorter than 16 bytes. -/
  | badIVLength
  /-- ValueError from `cipher.decrypt` when the input is not a multiple of 16 bytes. -/
  | notAligned
  /-- IndexError reading `data[-1]` when the decrypted byte string is empty. -/
  | emptyData
  /-- ValueError "Incorrect Key." raised by the padding check (the IntegrityError). -/
  | incorrectKey
deriving DecidableEq

/-- key_loader.get_encryption_key: PBKDF2 over the UTF-8 password and the
salt, 32 bytes, 10^6 iterations; the PBKDF2 call itself is the abstract
`kdf` field.  The password argument is the UTF-8 byte string. -/
def get_encryption_key (c : CryptoPrims) (password salt : List Nat) : List Nat :=
  c.kdf password salt

/-- key_loader.encrypt: PKCS#7-pad the data to a multiple of 16 bytes,
CBC-encrypt under the key with a fresh 16-byte random IV, and base64
encode the IV followed by the ciphertext.  The random IV read from
`Random.new()` is the explicit `nonce` argument. -/
def encrypt (c : CryptoPrims) (data key nonce : List Nat) : List Nat :=
  let pad_len := 16 - data.length % 16
  let pad_data := List.replicate pad_len pad_len
  let raw_data := data ++ pad_data
  b64encode (nonce ++ cbcEncrypt c key nonce raw_data)

/-- Body of key_loader.decrypt after the base64 decode: split the IV off,
CBC-decrypt the rest, read the padding length from the last byte, verify
the trailing padding and strip it. -/
def decryptBytes (c : CryptoPrims) (key data_enc : List Nat) : Except DecryptError (List Nat) :=
  if data_enc.length < 16 then .error .badIVLength
  else if (data_enc.length - 16) % 16 ≠ 0 then .error .notAligned
  else
    let nonce := data_enc.take 16
    let data := cbcDecrypt c key nonce (data_enc.drop 16)
    match data.getLast? with
    | none => .error .emptyData
    | some pad_len =>
      if pySliceFromNeg data pad_len = List.replicate pad_len pad_len
      then .ok (pySliceToNeg data pad_len)
      else .error .incorrectKey

/-- key_loader.decrypt on the base64 blob. -/
def decrypt (c : CryptoPrims) (data key : List Nat) : Except DecryptError (List Nat) :=
  match b64decode data with
  | none => .error .badBase64
  | some data_enc => decryptBytes c key data_enc

/-- On-disk wallet record: the three pickled fields of a `.wlt` file, in
the order save_wallet writes them. -/
structure WalletFile where
  address : Nat
  salt : List Nat
  enc_data : List Nat
deriving DecidableEq

/-- key_loader.save_wallet: derive the address, draw a 32-byte random
salt, encrypt the 32 big-endian key bytes under the password-derived key
and pickle the three fields.  The random salt and the random IV drawn
inside `encrypt` are explicit arguments; writing the file is modelled as
returning the record. -/
def save_wallet (c : CryptoPrims) (eth_key : Nat) (password salt nonce : List Nat) : WalletFile :=
  { address := c.addrOf eth_key
    salt := salt
    enc_data := encrypt c (toBytesBE 32 eth_key) (get_encryption_key c password salt) nonce }

/-- key_loader.load_wallet_address: read only the first pickled field. -/
def load_wallet_address (f : WalletFile) : Nat := f.address

/-- key_loader.load_wallet: read the record (the first pickled field, the
address, is loaded and discarded at line 115), derive the key from the
password and the stored salt, decrypt and convert back to an integer. -/
def load_wallet (c : CryptoPrims) (f : WalletFile) (password : List Nat) :
    Except DecryptError Nat :=
  (decrypt c f.enc_data (get_encryption_key c password f.salt)).map fromBytesBE

/-! ### Round-trip facts about the KeyCipher layer -/

theorem take_append_self (l₁ l₂ : List Nat) : (l₁ ++ l₂).take l₁.length = l₁ := by
  rw [List.take_append_of_le_length le_rfl, List.take_length]

theorem drop_append_self (l₁ l₂ : List Nat) : (l₁ ++ l₂).drop l₁.length = l₂ := by
  rw [List.drop_append_of_le_length le_rfl, List.drop_length, List.nil_append]

theorem toBlocksAux_mem_length (f : Nat) (l : List Nat) (h : l.length ≤ f)
    (hm : l.length % 16 = 0) : ∀ b ∈ toBlocksAux f l, b.length = 16 := by
  induction f generalizing l with
  | zero =>
    have : l = [] := List.length_eq_zero.mp (by omega)
    subst this
    intro b hb; simp [toBlocksAux] at hb
  | succ f ih =>
    cases l with
    | nil => intro b hb; simp [toBlocksAux] at hb
    | cons a l =>
      intro b hb
      rw [toBlocksAux] at hb
      rcases List.mem_cons.mp hb with hb | hb
      · subst hb
        rw [List.length_take, List.length_cons]
        simp only [List.length_cons] at hm
        omega
      · refine ih _ ?_ ?_ b hb
        · simp only [List.length_drop, List.length_cons] at h ⊢; omega
        · simp only [List.length_drop, List.length_cons] at hm ⊢; omega

theorem toBlocks_mem_length (l : List Nat) (hm : l.length % 16 = 0) :
    ∀ b ∈ toBlocks l, b.length = 16 :=
  toBlocksAux_mem_length l.length l le_rfl hm

theorem cbcEncBlocks_mem_length (c : CryptoPrims) (key : List Nat) (bs : List (List Nat))
    (prev : List Nat) (hp : prev.length = 16) (hbs : ∀ b ∈ bs, b.length = 16) :
    ∀ e ∈ cbcEncBlocks c key prev bs, e.length = 16 := by
  induction bs generalizing prev with
  | nil => intro e he; simp [cbcEncBlocks] at he
  | cons b bs ih =>
    intro e he
    rw [cbcEncBlocks] at he
    have hb : b.length = 16 := hbs b (by simp)
    have hxlen : (xorBytes b prev).length = 16 := by
      rw [length_xorBytes, hb, hp]; exact Nat.min_self 16
    rcases List.mem_cons.mp he with he | he
    · subst he
      exact c.blockEnc_length key _ hxlen
    · exact ih _ (c.blockEnc_length key _ hxlen) (fun x hx => hbs x (by simp [hx])) e he

theorem cbcEncBlocks_mem_lt (c : CryptoPrims) (key : List Nat) (bs : List (List Nat))
    (prev : List Nat) (hp : ∀ x ∈ prev, x < 256) (hbs : ∀ b ∈ bs, ∀ x ∈ b, x < 256) :
    ∀ e ∈ cbcEncBlocks c key prev bs, ∀ x ∈ e, x < 256 := by
  induction bs generalizing prev with
  | nil => intro e he; simp [cbcEncBlocks] at he
  | cons b bs ih =>
    intro e he
    rw [cbcEncBlocks] at he
    have hb : ∀ x ∈ b, x < 256 := hbs b (by simp)
    have henc : ∀ x ∈ c.blockEnc key (xorBytes b prev), x < 256 :=
      c.blockEnc_lt key _ (xorBytes_lt b prev hb hp)
    rcases List.mem_cons.mp he with he | he
    · subst he
      exact henc
    · exact ih _ henc (fun u hu => hbs u (by simp [hu])) e he

theorem length_flatten_blocks (bs : List (List Nat)) (h : ∀ b ∈ bs, b.length = 16) :
    bs.flatten.length = 16 * bs.length := by
  induction bs with
  | nil => rfl
  | cons b bs ih =>
    rw [List.flatten_cons, List.length_append, h b (by simp),
      ih (fun x hx => h x (by simp [hx])), List.length_cons]
    ring

theorem cbcDecrypt_cbcEncrypt (c : CryptoPrims) (key iv raw : List Nat)
    (hiv : iv.length = 16) (hmod : raw.length % 16 = 0) :
    cbcDecrypt c key iv (cbcEncrypt c key iv raw) = raw := by
  rw [cbcEncrypt, cbcDecrypt,
    toBlocks_flatten _ (cbcEncBlocks_mem_length c key _ iv hiv (toBlocks_mem_length raw hmod)),
    cbcDecBlocks_cbcEncBlocks c key _ iv hiv (toBlocks_mem_length raw hmod),
    flatten_toBlocks]

theorem decryptBytes_cbc_padded (c : CryptoPrims) (key nonce data : List Nat) (p : Nat)
    (hn : nonce.length = 16) (hp1 : 1 ≤ p) (hp16 : p ≤ 16)
    (hmod : (data.length + p) % 16 = 0) :
    decryptBytes c key (nonce ++ cbcEncrypt c key nonce (data ++ List.replicate p p)) =
      Except.ok data := by
  have hraw_len : (data ++ List.replicate p p).length = data.length + p := by
    rw [List.length_append, List.length_replicate]
  have hraw_mod : (data ++ List.replicate p p).length % 16 = 0 := by
    rw [hraw_len]; omega
  have hblocks_len : ∀ b ∈ toBlocks (data ++ List.replicate p p), b.length = 16 :=
    toBlocks_mem_length _ hraw_mod
  have henc_len : ∀ e ∈ cbcEncBlocks c key nonce (toBlocks (data ++ List.replicate p p)),
      e.length = 16 :=
    cbcEncBlocks_mem_length c key _ nonce hn hblocks_len
  have hct_len : (cbcEncrypt c key nonce (data ++ List.replicate p p)).length % 16 = 0 := by
    rw [cbcEncrypt, length_flatten_blocks _ henc_len]; omega
  have htake : (nonce ++ cbcEncrypt c key nonce (data ++ List.replicate p p)).take 16 = nonce := by
    have h := take_append_self nonce (cbcEncrypt c key nonce (data ++ List.replicate p p))
    rwa [hn] at h
  have hdrop : (nonce ++ cbcEncrypt c key nonce (data ++ List.replicate p p)).drop 16 =
      cbcEncrypt c key nonce (data ++ List.replicate p p) := by
    have h := drop_append_self nonce (cbcEncrypt c key nonce (data ++ List.replicate p p))
    rwa [hn] at h
  have hlast : (data ++ List.replicate p p).getLast? = some p := by
    obtain ⟨q, hq⟩ : ∃ q, p = q + 1 := ⟨p - 1, by omega⟩
    conv_lhs => rw [hq, List.replicate_succ']
    rw [← List.append_assoc, List.getLast?_concat, hq]
  have hslice1 : pySliceFromNeg (data ++ List.replicate p p) p = List.replicate p p := by
    rw [pySliceFromNeg, if_neg (by omega), hraw_len]
    have h2 : data.length + p - p = data.length := by omega
    rw [h2]
    exact drop_append_self data _
  have hslice2 : pySliceToNeg (data ++ List.replicate p p) p = data := by
    rw [pySliceToNeg, if_neg (by omega), hraw_len]
    have h2 : data.length + p - p = data.length := by omega
    rw [h2]
    exact take_append_self data _
  rw [decryptBytes]
  rw [if_neg (by rw [List.length_append, hn]; omega)]
  rw [if_neg (by rw [List.length_append, hn]; omega)]
  simp only [htake, hdrop, cbcDecrypt_cbcEncrypt c key nonce _ hn hraw_mod, hlast]
  rw [if_pos hslice1, hslice2]

/-- The base64 decoding of an encrypt output recovers the IV followed by
the CBC ciphertext of the padded plaintext. -/
theorem encrypt_decode (c : CryptoPrims) (data key nonce : List Nat)
    (_hn : nonce.length = 16) (hnb : ∀ x ∈ nonce, x < 256) (hdb : ∀ x ∈ data, x < 256) :
    b64decode (encrypt c data key nonce) =
      some (nonce ++ cbcEncrypt c key nonce
        (data ++ List.replicate (16 - data.length % 16) (16 - data.length % 16))) := by
  have hraw_lt : ∀ x ∈ data ++ List.replicate (16 - data.length % 16) (16 - data.length % 16),
      x < 256 := by
    intro x hx
    rcases List.mem_append.mp hx with hx | hx
    · exact hdb x hx
    · rw [List.eq_of_mem_replicate hx]; omega
  have hraw_mod : (data ++ List.replicate (16 - data.length % 16)
      (16 - data.length % 16)).length % 16 = 0 := by
    rw [List.length_append, List.length_replicate]; omega
  have hblocks_lt : ∀ b ∈ toBlocks (data ++ List.replicate (16 - data.length % 16)
      (16 - data.length % 16)), ∀ x ∈ b, x < 256 := by
    intro b hb x hx
    refine hraw_lt x ?_
    rw [← flatten_toBlocks (data ++ List.replicate (16 - data.length % 16)
      (16 - data.length % 16))]
    exact List.mem_flatten.mpr ⟨b, hb, hx⟩
  have hct_lt : ∀ x ∈ cbcEncrypt c key nonce (data ++ List.replicate (16 - data.length % 16)
      (16 - data.length % 16)), x < 256 := by
    intro x hx
    rw [cbcEncrypt] at hx
    rcases List.mem_flatten.mp hx with ⟨e, he, hx⟩
    exact cbcEncBlocks_mem_lt c key _ nonce hnb hblocks_lt e he x hx
  have hall_lt : ∀ x ∈ nonce ++ cbcEncrypt c key nonce (data ++
      List.replicate (16 - data.length % 16) (16 - data.length % 16)), x < 256 := by
    intro x hx
    rcases List.mem_append.mp hx with hx | hx
    · exact hnb x hx
    · exact hct_lt x hx
  show b64decode (b64encode (nonce ++ cbcEncrypt c key nonce
    (data ++ List.replicate (16 - data.length % 16) (16 - data.length % 16)))) = _
  rw [b64decode_b64encode _ hall_lt]

/-- KeyCipher round-trip on the byte level: decrypting an encryption with
the same key recovers the plaintext, for every 16-byte IV. -/
theorem decrypt_encrypt (c : CryptoPrims) (data key nonce : List Nat)
    (hn : nonce.length = 16) (hnb : ∀ x ∈ nonce, x < 256) (hdb : ∀ x ∈ data, x < 256) :
    decrypt c (encrypt c data key nonce) key = Except.ok data := by
  rw [decrypt, encrypt_decode c data key nonce hn hnb hdb]
  exact decryptBytes_cbc_padded c key nonce data (16 - data.length % 16) hn (by omega)
    (by omega) (by omega)

/-! ### imx_wallet.py: mailbox, relay handlers and signing sessions -/

/-- Module-level mailbox state of imx_wallet.py: the pending message and
the human-readable action description shared between the caller and the
HTTP thread. -/
structure Mailbox where
  message_to_sign : String
  action_to_perform : String
deriving DecidableEq

/-- Initial module state (lines 145-146): both slots empty. -/
def initialMailbox : Mailbox := { message_to_sign := "", action_to_perform := "" }

/-- imx_wallet.request_signature (lines 262-270): overwrite both slots
with the new request.  The lazy server start concerns only the HTTP
thread and does not touch the slots. -/
def request_signature (message action : String) (_mb : Mailbox) : Mailbox :=
  { message_to_sign := message, action_to_perform := action }

/-- imx_wallet.finish_signature_request (lines 272-275): clear both slots. -/
def finish_signature_request (_mb : Mailbox) : Mailbox :=
  { message_to_sign := "", action_to_perform := "" }

/-- Response body of `GET /message` (lines 215-218). -/
def do_GET_message (mb : Mailbox) : String := mb.message_to_sign

/-- Response body of `GET /action` (lines 219-227). -/
def do_GET_action (mb : Mailbox) : String :=
  if mb.message_to_sign.length = 0 then
    "No message available for signing, refresh the page or click \x27Sign message\x27 to check for new messages."
  else if mb.action_to_perform.length = 0 then
    "Sign the message \x27" ++ mb.message_to_sign ++ "\x27 to complete an action in pyGUMarket."
  else mb.action_to_perform

/-- Payload POSTed to `/signature` by the signing page: the JSON fields
the browser reports, forwarded verbatim onto the queue (lines 233-238). -/
structure SigningResult where
  address : String
  message : String
  signature : String
deriving DecidableEq

/-- ASCII code point of a lowercase hexadecimal digit. -/
def hexDigitChar (n : Nat) : Char := Char.ofNat (if n < 10 then 48 + n else 87 + n)

def hexDigitsAux : Nat → Nat → List Char
  | 0, _ => []
  | fuel + 1, n =>
    if n < 16 then [hexDigitChar n] else hexDigitsAux fuel (n / 16) ++ [hexDigitChar (n % 16)]

/-- Python `hex()` of a nonnegative integer: `0x` followed by lowercase
hexadecimal digits, with `hex(0) = "0x0"`.  The sessions compare the
browser-reported address against `str(hex(self.address))`. -/
def hexStr (n : Nat) : String := "0x" ++ String.mk (hexDigitsAux (n + 1) n)

/-- Failure of a signing session: the AssertionError raised when the
signed message or the reported address does not match the request. -/
inductive SessionError where
  | assertionError
deriving DecidableEq

/-- Validation step of imx_web_wallet.__init__ (lines 64-71), the session
that connects the web wallet: on a matching message the code proceeds
with the reported address and signature (the `int(_, 16)` conversions are
Python builtins applied to the two returned strings); otherwise it
raises AssertionError. -/
def web_wallet_connect (imx_seed_msg : String) (result : SigningResult) :
    Except SessionError (String × String) :=
  if result.message = imx_seed_msg then Except.ok (result.address, result.signature)
  else Except.error SessionError.assertionError

/-- Validation step shared by register_address, sell_nft, cancel_order,
transfer_nft, transfer_token and buy_nft (lines 80-83 and the parallel
branches): the result is accepted only when the signed message equals
the requested signable message and the reported address equals
`str(hex(self.address))`; the accepted branch goes on to use
`result["signature"]`. -/
def session_validate (signable_message : String) (self_address : Nat)
    (result : SigningResult) : Except SessionError String :=
  if result.message = signable_message ∧ result.address = hexStr self_address
  then Except.ok result.signature
  else Except.error SessionError.assertionError

/-- imx_web_wallet.register_address (lines 73-83) as a transition on the
mailbox: publish the link request, wait for a result (the delivered
result is the explicit argument), clear the slots, then validate.  The
value of `imx_get_link_msg()` is the `imx_link_msg` argument; the
accepted branch forwards `result["signature"]` to the external
imx_register_address_presign call. -/
def register_address_session (imx_link_msg : String) (self_address : Nat)
    (result : SigningResult) (mb : Mailbox) : Mailbox × Except SessionError String :=
  let mb1 := request_signature imx_link_msg "Link your wallet to IMX." mb
  let mb2 := finish_signature_request mb1
  (mb2, session_validate imx_link_msg self_address result)

/-- One mailbox-mutating call of imx_wallet.py. -/
inductive MailboxEvent where
  | publish (message action : String)
  | finish
deriving DecidableEq

def stepMailbox (mb : Mailbox) : MailboxEvent → Mailbox
  | MailboxEvent.publish m a => request_signature m a mb
  | MailboxEvent.finish => finish_signature_request mb

def runMailbox (mb : Mailbox) (es : List MailboxEvent) : Mailbox := es.foldl stepMailbox mb

/-- Spec-side comparator for the mailbox claim, following the words of
the spec: the message of the most recent publish, or empty when there is
none or when a finish came after it.  Stated on the reversed trace. -/
def specLastPublishedRev : List MailboxEvent → String
  | [] => ""
  | MailboxEvent.publish m _ :: _ => m
  | MailboxEvent.finish :: _ => ""

/-- Spec-side comparator on the trace itself. -/
def specLastPublished (es : List MailboxEvent) : String := specLastPublishedRev es.reverse

/-! ### Concrete primitive instances used to evaluate the model

The AES block cipher is a library black box; the contracts the code can
rely on are the fields of `CryptoPrims`.  The two instances below satisfy
every field and are used to run the model on concrete inputs.  `idCrypto`
ignores the key entirely, which exhibits that the padding check alone is
what stands between a wrong password and a silently returned key. -/

def idCrypto : CryptoPrims where
  blockEnc := fun _ b => b
  blockDec := fun _ b => b
  kdf := fun p s => p ++ s
  addrOf := fun k => k
  blockDec_blockEnc := fun _ _ _ => rfl
  blockEnc_length := fun _ _ h => h
  blockEnc_lt := fun _ _ h => h

/-- First 16 bytes of the key, padded with zeros and reduced mod 256. -/
def maskKey (key : List Nat) : List Nat :=
  ((key ++ List.replicate 16 0).take 16).map (fun y => y % 256)

theorem length_maskKey (key : List Nat) : (maskKey key).length = 16 := by
  rw [maskKey, List.length_map, List.length_take, List.length_append, List.length_replicate]
  omega

theorem maskKey_lt (key : List Nat) : ∀ x ∈ maskKey key, x < 256 := by
  intro x hx
  rcases List.mem_map.mp hx with ⟨y, _, rfl⟩
  exact Nat.mod_lt _ (by omega)

def xorCrypto : CryptoPrims where
  blockEnc := fun key b => xorBytes b (maskKey key)
  blockDec := fun key b => xorBytes b (maskKey key)
  kdf := fun p s => p ++ s
  addrOf := fun k => k
  blockDec_blockEnc := fun key b hb =>
    xorBytes_cancel b (maskKey key) (by rw [hb, length_maskKey])
  blockEnc_length := fun key b hb => by
    rw [length_xorBytes, hb, length_maskKey]
    exact Nat.min_self 16
  blockEnc_lt := fun key b hb => xorBytes_lt b (maskKey key) hb (maskKey_lt key)

/-! ### Predicates naming the padding check of decrypt -/

/-- Padding check of key_loader.decrypt, as a Boolean on the decrypted
bytes: true when the bytes are nonempty and fail the trailing-padding
comparison (the branch that raises the IntegrityError). -/
def paddingInvalid (data : List Nat) : Bool :=
  match data.getLast? with
  | none => false
  | some pad_len => decide (pySliceFromNeg data pad_len ≠ List.replicate pad_len pad_len)

/-- Bytes the padding check of load_wallet examines when a saved vault is
opened with password `wrong`: the CBC decryption, under the key derived
from `wrong`, of the ciphertext that save_wallet produced under
`password` (32 key bytes plus a full 16-byte padding block). -/
def wrongKeyPlain (c : CryptoPrims) (k : Nat) (password wrong salt nonce : List Nat) :
    List Nat :=
  cbcDecrypt c (get_encryption_key c wrong salt) nonce
    (cbcEncrypt c (get_encryption_key c password salt) nonce
      (toBytesBE 32 k ++ List.replicate 16 16))

/-- Decryption of a valid encrypt output under an arbitrary (possibly
different) key reaches the padding check on the CBC decryption of the
ciphertext part; no earlier check can fail. -/
theorem decryptBytes_append_cbc (c : CryptoPrims) (key1 key2 nonce raw : List Nat)
    (hn : nonce.length = 16) (hmod : raw.length % 16 = 0) :
    decryptBytes c key2 (nonce ++ cbcEncrypt c key1 nonce raw) =
      match (cbcDecrypt c key2 nonce (cbcEncrypt c key1 nonce raw)).getLast? with
      | none => Except.error DecryptError.emptyData
      | some pad_len =>
        if pySliceFromNeg (cbcDecrypt c key2 nonce (cbcEncrypt c key1 nonce raw)) pad_len =
            List.replicate pad_len pad_len
        then Except.ok (pySliceToNeg (cbcDecrypt c key2 nonce (cbcEncrypt c key1 nonce raw))
          pad_len)
        else Except.error DecryptError.incorrectKey := by
  have henc_len : ∀ e ∈ cbcEncBlocks c key1 nonce (toBlocks raw), e.length = 16 :=
    cbcEncBlocks_mem_length c key1 _ nonce hn (toBlocks_mem_length raw hmod)
  have hct : (cbcEncrypt c key1 nonce raw).length % 16 = 0 := by
    rw [cbcEncrypt, length_flatten_blocks _ henc_len]; omega
  have htake := take_append_self nonce (cbcEncrypt c key1 nonce raw)
  rw [hn] at htake
  have hdrop := drop_append_self nonce (cbcEncrypt c key1 nonce raw)
  rw [hn] at hdrop
  rw [decryptBytes, if_neg (by rw [List.length_append, hn]; omega),
    if_neg (by rw [List.length_append, hn]; omega)]
  simp only [htake, hdrop]

/-! ### The claims -/

/-- C1: for every private key below 2^256 and every password, saving a
wallet and loading it back with the same password returns exactly the
key; the underlying KeyCipher round-trip decrypt(encrypt(k, deriveKey(p,
salt)), deriveKey(p, salt)) = k holds for the freshly generated salt and
IV. -/
theorem c1_save_load_roundtrip (c : CryptoPrims) (k : Nat) (password salt nonce : List Nat)
    (hk : k < 2 ^ 256) (hn : nonce.length = 16) (hnb : ∀ x ∈ nonce, x < 256) :
    load_wallet c (save_wallet c k password salt nonce) password = Except.ok k ∧
    decrypt c (encrypt c (toBytesBE 32 k) (get_encryption_key c password salt) nonce)
      (get_encryption_key c password salt) = Except.ok (toBytesBE 32 k) := by
  have hd := decrypt_encrypt c (toBytesBE 32 k) (get_encryption_key c password salt) nonce hn
    hnb (toBytesBE_lt 32 k)
  refine ⟨?_, hd⟩
  show (decrypt c (encrypt c (toBytesBE 32 k) (get_encryption_key c password salt) nonce)
    (get_encryption_key c password salt)).map fromBytesBE = Except.ok k
  rw [hd]
  show Except.ok (fromBytesBE (toBytesBE 32 k)) = Except.ok k
  rw [fromBytesBE_toBytesBE 32 k (by
    have h8 : (256 : Nat) ^ 32 = 2 ^ 256 := by norm_num
    omega)]

/-- C1 witness: the concrete scenario of the spec, with key 0x1234. -/
theorem c1_save_load_roundtrip_witness :
    4660 < 2 ^ 256 ∧
    load_wallet idCrypto (save_wallet idCrypto 4660 [1] [2] (List.replicate 16 0)) [1] =
      Except.ok 4660 :=
  ⟨by norm_num, (c1_save_load_roundtrip idCrypto 4660 [1] [2] (List.replicate 16 0)
    (by norm_num) (by decide) (by decide)).1⟩

/-- C2 counterexample: the code contains no mechanism that forces a wrong
password to raise the IntegrityError - acceptance is decided solely by
the padding check on the garbage decryption.  With a key cipher
satisfying every contract the library documents and this file uses
(idCrypto, whose block operations do not depend on the key), the derived
keys for the two passwords differ, yet loading the saved vault with the
wrong password silently returns the original key. -/
theorem c2_counterexample :
    ([1] : List Nat) ≠ [2] ∧
    get_encryption_key idCrypto [1] [2] ≠ get_encryption_key idCrypto [2] [2] ∧
    load_wallet idCrypto (save_wallet idCrypto 4660 [1] [2] (List.replicate 16 0)) [2] =
      Except.ok 4660 :=
  ⟨by decide, by decide, by rfl⟩

/-- C2 amended: loading a saved vault with a wrong password raises the
IntegrityError whenever the padding check fails on the bytes decrypted
under the wrongly derived key - the case the spec describes as holding
with high probability for a real cipher; the padding check is the only
rejection mechanism. -/
theorem c2_wrong_password_rejection (c : CryptoPrims) (k : Nat)
    (password wrong salt nonce : List Nat) (hn : nonce.length = 16)
    (hnb : ∀ x ∈ nonce, x < 256)
    (hpad : paddingInvalid (wrongKeyPlain c k password wrong salt nonce) = true) :
    load_wallet c (save_wallet c k password salt nonce) wrong =
      Except.error DecryptError.incorrectKey := by
  have hdlen := length_toBytesBE 32 k
  have hhigh : encrypt c (toBytesBE 32 k) (get_encryption_key c password salt) nonce =
      b64encode (nonce ++ cbcEncrypt c (get_encryption_key c password salt) nonce
        (toBytesBE 32 k ++ List.replicate 16 16)) := by
    simp only [encrypt, hdlen]
  have hmod : (toBytesBE 32 k ++ List.replicate 16 16).length % 16 = 0 := by
    rw [List.length_append, hdlen, List.length_replicate]
  have hdec : b64decode (encrypt c (toBytesBE 32 k) (get_encryption_key c password salt)
      nonce) = some (nonce ++ cbcEncrypt c (get_encryption_key c password salt) nonce
        (toBytesBE 32 k ++ List.replicate 16 16)) := by
    have h := encrypt_decode c (toBytesBE 32 k) (get_encryption_key c password salt) nonce hn
      hnb (toBytesBE_lt 32 k)
    rw [hdlen] at h
    simpa using h
  show (decrypt c (encrypt c (toBytesBE 32 k) (get_encryption_key c password salt) nonce)
    (get_encryption_key c wrong salt)).map fromBytesBE =
    Except.error DecryptError.incorrectKey
  rw [decrypt, hdec]
  show (decryptBytes c (get_encryption_key c wrong salt)
    (nonce ++ cbcEncrypt c (get_encryption_key c password salt) nonce
      (toBytesBE 32 k ++ List.replicate 16 16))).map fromBytesBE = _
  rw [decryptBytes_append_cbc c (get_encryption_key c password salt)
    (get_encryption_key c wrong salt) nonce _ hn hmod]
  have hwkp : cbcDecrypt c (get_encryption_key c wrong salt) nonce
      (cbcEncrypt c (get_encryption_key c password salt) nonce
        (toBytesBE 32 k ++ List.replicate 16 16)) =
      wrongKeyPlain c k password wrong salt nonce := rfl
  rw [hwkp]
  cases hlast : (wrongKeyPlain c k password wrong salt nonce).getLast? with
  | none =>
    rw [paddingInvalid, hlast] at hpad
    simp at hpad
  | some pad_len =>
    rw [paddingInvalid, hlast] at hpad
    simp only [decide_eq_true_eq] at hpad
    simp only [hlast]
    rw [if_neg hpad]
    rfl

/-- C2 amended witness: a key-dependent cipher instance and a wrong
password whose derived key scrambles the padding block, so the load is
rejected with the IntegrityError. -/
theorem c2_wrong_password_rejection_witness :
    paddingInvalid (wrongKeyPlain xorCrypto 4660 [1] [2] [3] (List.replicate 16 0)) = true ∧
    load_wallet xorCrypto (save_wallet xorCrypto 4660 [1] [3] (List.replicate 16 0)) [2] =
      Except.error DecryptError.incorrectKey :=
  ⟨by decide, c2_wrong_password_rejection xorCrypto 4660 [1] [2] [3] (List.replicate 16 0)
    (by decide) (by decide) (by decide)⟩

/-- C3: a signing session returns a signature only for a result whose
message equals the published request message and, when an expected
address is set as in register_address and the order and transfer
operations, whose address equals str(hex(self.address)); any mismatch,
even by a single byte of the message, ends in the AssertionError instead
of a return.  The first two conjuncts cover the address-checking
sessions, the last two the connect session of the constructor, which
checks only the message. -/
theorem c3_validation_enforcement (msg : String) (self_address : Nat) (r : SigningResult) :
    (∀ s, session_validate msg self_address r = Except.ok s ↔
      (r.message = msg ∧ r.address = hexStr self_address ∧ s = r.signature)) ∧
    (session_validate msg self_address r = Except.error SessionError.assertionError ↔
      ¬(r.message = msg ∧ r.address = hexStr self_address)) ∧
    (∀ p, web_wallet_connect msg r = Except.ok p ↔
      (r.message = msg ∧ p = (r.address, r.signature))) ∧
    (web_wallet_connect msg r = Except.error SessionError.assertionError ↔
      r.message ≠ msg) := by
  refine ⟨fun s => ?_, ?_, fun p => ?_, ?_⟩
  · rw [session_validate]
    by_cases h : r.message = msg ∧ r.address = hexStr self_address
    · rw [if_pos h]
      constructor
      · intro hok
        injection hok with hok
        exact ⟨h.1, h.2, hok.symm⟩
      · rintro ⟨-, -, rfl⟩
        rfl
    · rw [if_neg h]
      constructor
      · intro hok
        exact absurd hok (by simp)
      · rintro ⟨h1, h2, -⟩
        exact absurd ⟨h1, h2⟩ h
  · rw [session_validate]
    by_cases h : r.message = msg ∧ r.address = hexStr self_address
    · rw [if_pos h]
      simp [h]
    · rw [if_neg h]
      simp [h]
  · rw [web_wallet_connect]
    by_cases h : r.message = msg
    · rw [if_pos h]
      constructor
      · intro hok
        injection hok with hok
        exact ⟨h, hok.symm⟩
      · rintro ⟨-, rfl⟩
        rfl
    · rw [if_neg h]
      constructor
      · intro hok
        exact absurd hok (by simp)
      · rintro ⟨h1, -⟩
        exact absurd h1 h
  · rw [web_wallet_connect]
    by_cases h : r.message = msg
    · rw [if_pos h]
      simp [h]
    · rw [if_neg h]
      simp [h]

theorem c4_aux (mb : Mailbox) (es : List MailboxEvent) (h0 : mb.message_to_sign = "") :
    do_GET_message (runMailbox mb es) = specLastPublished es := by
  induction es using List.reverseRecOn with
  | nil => exact h0
  | append_singleton es e _ih =>
    rw [runMailbox, List.foldl_append]
    cases e with
    | publish m a =>
      simp [specLastPublished, List.reverse_append, specLastPublishedRev, stepMailbox,
        request_signature, do_GET_message, List.foldl_cons, List.foldl_nil]
    | finish =>
      simp [specLastPublished, List.reverse_append, specLastPublishedRev, stepMailbox,
        finish_signature_request, do_GET_message, List.foldl_cons, List.foldl_nil]

/-- C4: starting from the initial module state, GET /message serves
exactly the message of the most recent request_signature call, or the
empty string when there is none or the last session completed; in
particular publishing request A and then request B makes /message serve
the message of B, whatever state the mailbox was in before. -/
theorem c4_message_last_writer_wins :
    (∀ es : List MailboxEvent,
      do_GET_message (runMailbox initialMailbox es) = specLastPublished es) ∧
    (∀ (mb : Mailbox) (A dA B dB : String),
      do_GET_message (stepMailbox (stepMailbox mb (MailboxEvent.publish A dA))
        (MailboxEvent.publish B dB)) = B) :=
  ⟨fun es => c4_aux initialMailbox es rfl, fun _ _ _ _ _ => rfl⟩

/-- C7: when a signing session completes with a matching result, the
request slot of the mailbox is cleared - both the pending message and
the description become empty, so a subsequent GET /message serves the
empty string - and the session returns result.signature. -/
theorem c7_completion_clears_mailbox (imx_link_msg : String) (self_address : Nat)
    (r : SigningResult) (mb : Mailbox) (hmsg : r.message = imx_link_msg)
    (haddr : r.address = hexStr self_address) :
    (register_address_session imx_link_msg self_address r mb).1.message_to_sign = "" ∧
    (register_address_session imx_link_msg self_address r mb).1.action_to_perform = "" ∧
    do_GET_message (register_address_session imx_link_msg self_address r mb).1 = "" ∧
    (register_address_session imx_link_msg self_address r mb).2 = Except.ok r.signature := by
  refine ⟨rfl, rfl, rfl, ?_⟩
  show session_validate imx_link_msg self_address r = Except.ok r.signature
  rw [session_validate, if_pos ⟨hmsg, haddr⟩]

/-- C7 witness: a matching result for a concrete session. -/
theorem c7_completion_clears_mailbox_witness :
    (SigningResult.mk "0x3" "m" "sig").message = "m" ∧
    (SigningResult.mk "0x3" "m" "sig").address = hexStr 3 ∧
    (register_address_session "m" 3 (SigningResult.mk "0x3" "m" "sig")
      (Mailbox.mk "x" "y")).1 = initialMailbox ∧
    (register_address_session "m" 3 (SigningResult.mk "0x3" "m" "sig")
      (Mailbox.mk "x" "y")).2 = Except.ok "sig" :=
  ⟨rfl, by decide, rfl,
    (c7_completion_clears_mailbox "m" 3 (SigningResult.mk "0x3" "m" "sig")
      (Mailbox.mk "x" "y") rfl (by decide)).2.2.2⟩

/-- C8 counterexample: a mailbox state with a pending message and an
empty description.  GET /action then serves a synthesized prompt naming
the message - neither the stored (empty) description nor the fixed
no-message fallback, so the two-case description of the claim does not
cover this state. -/
theorem c8_counterexample :
    do_GET_action (Mailbox.mk "m" "") ≠ (Mailbox.mk "m" "").action_to_perform ∧
    do_GET_action (Mailbox.mk "m" "") ≠
      "No message available for signing, refresh the page or click \x27Sign message\x27 to check for new messages." ∧
    do_GET_action (Mailbox.mk "m" "") =
      "Sign the message \x27m\x27 to complete an action in pyGUMarket." :=
  ⟨by decide, by decide, by decide⟩

theorem string_length_eq_zero_iff (s : String) : s.length = 0 ↔ s = "" := by
  cases s with
  | mk data =>
    cases data with
    | nil => simp
    | cons ch cs =>
      constructor
      · intro h
        simp [String.length] at h
      · intro h
        exact absurd (congrArg String.data h) (by simp)

/-- C8 amended: GET /action serves the stored description when a message
is pending and the stored description is nonempty; with a pending
message and an empty description it serves a synthesized prompt naming
the message; with no pending message it serves the fixed fallback text. -/
theorem c8_action_three_cases (mb : Mailbox) :
    (mb.message_to_sign = "" → do_GET_action mb =
      "No message available for signing, refresh the page or click \x27Sign message\x27 to check for new messages.") ∧
    (mb.message_to_sign ≠ "" → mb.action_to_perform ≠ "" →
      do_GET_action mb = mb.action_to_perform) ∧
    (mb.message_to_sign ≠ "" → mb.action_to_perform = "" →
      do_GET_action mb =
        "Sign the message \x27" ++ mb.message_to_sign ++ "\x27 to complete an action in pyGUMarket.") := by
  refine ⟨fun h => ?_, fun h1 h2 => ?_, fun h1 h2 => ?_⟩
  · rw [do_GET_action, if_pos ((string_length_eq_zero_iff _).mpr h)]
  · rw [do_GET_action, if_neg (fun hc => h1 ((string_length_eq_zero_iff _).mp hc)),
      if_neg (fun hc => h2 ((string_length_eq_zero_iff _).mp hc))]
  · rw [do_GET_action, if_neg (fun hc => h1 ((string_length_eq_zero_iff _).mp hc)),
      if_pos ((string_length_eq_zero_iff _).mpr h2)]

/-- C8 amended witness: the three branches at concrete mailbox states. -/
theorem c8_action_three_cases_witness :
    do_GET_action (Mailbox.mk "m" "a") = "a" ∧
    do_GET_action (Mailbox.mk "" "x") =
      "No message available for signing, refresh the page or click \x27Sign message\x27 to check for new messages." ∧
    do_GET_action (Mailbox.mk "m" "") =
      "Sign the message \x27" ++ "m" ++ "\x27 to complete an action in pyGUMarket." :=
  ⟨(c8_action_three_cases (Mailbox.mk "m" "a")).2.1 (by decide) (by decide),
   (c8_action_three_cases (Mailbox.mk "" "x")).1 rfl,
   (c8_action_three_cases (Mailbox.mk "m" "")).2.2 (by decide) rfl⟩

/-- C5: decrypt raises the IntegrityError exactly when the bytes obtained
by CBC-decrypting the ciphertext part of the decoded blob are nonempty
and their trailing pad_len bytes - pad_len being the value of the last
decrypted byte - are not all equal to pad_len; when no error is raised
the result is the decrypted bytes with those pad_len trailing bytes
stripped. -/
theorem c5_integrity_error_iff (c : CryptoPrims) (blob key : List Nat) :
    (decrypt c blob key = Except.error DecryptError.incorrectKey ↔
      ∃ d, b64decode blob = some d ∧ 16 ≤ d.length ∧ (d.length - 16) % 16 = 0 ∧
        paddingInvalid (cbcDecrypt c key (d.take 16) (d.drop 16)) = true) ∧
    (∀ r, decrypt c blob key = Except.ok r ↔
      ∃ d, b64decode blob = some d ∧ 16 ≤ d.length ∧ (d.length - 16) % 16 = 0 ∧
        ∃ pad_len, (cbcDecrypt c key (d.take 16) (d.drop 16)).getLast? = some pad_len ∧
          pySliceFromNeg (cbcDecrypt c key (d.take 16) (d.drop 16)) pad_len =
            List.replicate pad_len pad_len ∧
          r = pySliceToNeg (cbcDecrypt c key (d.take 16) (d.drop 16)) pad_len) := by
  cases hdec : b64decode blob with
  | none =>
    refine ⟨?_, fun r => ?_⟩ <;> simp [decrypt, hdec]
  | some d =>
    by_cases hlt : d.length < 16
    · have h16 : ¬ 16 ≤ d.length := by omega
      refine ⟨?_, fun r => ?_⟩ <;>
      · simp only [decrypt, hdec, decryptBytes]
        rw [if_pos hlt]
        simp [h16]
    · by_cases halign : (d.length - 16) % 16 = 0
      · cases hlast : (cbcDecrypt c key (d.take 16) (d.drop 16)).getLast? with
        | none =>
          refine ⟨?_, fun r => ?_⟩ <;>
          · simp only [decrypt, hdec, decryptBytes]
            rw [if_neg hlt, if_neg (not_not_intro halign), hlast]
            simp [paddingInvalid, hdec, hlast]
        | some pl =>
          by_cases hps : pySliceFromNeg (cbcDecrypt c key (d.take 16) (d.drop 16)) pl =
              List.replicate pl pl
          · have h16 : 16 ≤ d.length := by omega
            refine ⟨?_, fun r => ?_⟩
            · simp only [decrypt, hdec, decryptBytes]
              rw [if_neg hlt, if_neg (not_not_intro halign), hlast]
              simp [paddingInvalid, hlast, hps]
            · simp only [decrypt, hdec, decryptBytes]
              rw [if_neg hlt, if_neg (not_not_intro halign), hlast]
              simp [hlast, hps, h16, halign]
              exact eq_comm
          · have h16 : 16 ≤ d.length := by omega
            refine ⟨?_, fun r => ?_⟩ <;>
            · simp only [decrypt, hdec, decryptBytes]
              rw [if_neg hlt, if_neg (not_not_intro halign), hlast]
              simp [paddingInvalid, hlast, hps, h16, halign]
      · refine ⟨?_, fun r => ?_⟩ <;>
        · simp only [decrypt, hdec, decryptBytes]
          rw [if_neg hlt, if_pos halign]
          simp [halign]

/-- C6: with the same key and plaintext, two encrypt calls with distinct
fresh 16-byte IVs yield different ciphertexts - the encoded output is
the IV followed by the ciphertext, so it differs whenever the IVs do -
and for every IV the output decrypts back to the original plaintext. -/
theorem c6_fresh_iv_nondeterminism (c : CryptoPrims) (data key n1 n2 : List Nat)
    (h1 : n1.length = 16) (h2 : n2.length = 16) (hb1 : ∀ x ∈ n1, x < 256)
    (hb2 : ∀ x ∈ n2, x < 256) (hdata : ∀ x ∈ data, x < 256) (hne : n1 ≠ n2) :
    encrypt c data key n1 ≠ encrypt c data key n2 ∧
    decrypt c (encrypt c data key n1) key = Except.ok data ∧
    decrypt c (encrypt c data key n2) key = Except.ok data := by
  refine ⟨?_, decrypt_encrypt c data key n1 h1 hb1 hdata,
    decrypt_encrypt c data key n2 h2 hb2 hdata⟩
  intro heq
  have d1 := encrypt_decode c data key n1 h1 hb1 hdata
  have d2 := encrypt_decode c data key n2 h2 hb2 hdata
  rw [heq, d2] at d1
  injection d1 with d1
  have ht := congrArg (List.take 16) d1
  have e2 := take_append_self n2 (cbcEncrypt c key n2
    (data ++ List.replicate (16 - data.length % 16) (16 - data.length % 16)))
  rw [h2] at e2
  have e1 := take_append_self n1 (cbcEncrypt c key n1
    (data ++ List.replicate (16 - data.length % 16) (16 - data.length % 16)))
  rw [h1] at e1
  rw [e2, e1] at ht
  exact hne ht.symm

/-- C6 witness: distinct concrete IVs at a concrete instance. -/
theorem c6_fresh_iv_nondeterminism_witness :
    (List.replicate 16 0 : List Nat) ≠ List.replicate 15 0 ++ [1] ∧
    encrypt idCrypto [5] [7] (List.replicate 16 0) ≠
      encrypt idCrypto [5] [7] (List.replicate 15 0 ++ [1]) ∧
    decrypt idCrypto (encrypt idCrypto [5] [7] (List.replicate 16 0)) [7] =
      Except.ok [5] :=
  ⟨by decide,
   (c6_fresh_iv_nondeterminism idCrypto [5] [7] (List.replicate 16 0)
     (List.replicate 15 0 ++ [1]) (by decide) (by decide) (by decide) (by decide)
     (by decide) (by decide)).1,
   (c6_fresh_iv_nondeterminism idCrypto [5] [7] (List.replicate 16 0)
     (List.replicate 15 0 ++ [1]) (by decide) (by decide) (by decide) (by decide)
     (by decide) (by decide)).2.1⟩

/-- C9: load_wallet reads and discards the stored address field - the
first pickled value - so two vault files agreeing on salt and ciphertext
produce the same outcome for every password, whatever their address
fields hold; the recovered key is never validated against the stored
address on load. -/
theorem c9_address_field_ignored (c : CryptoPrims) (f g : WalletFile) (password : List Nat)
    (hsalt : f.salt = g.salt) (henc : f.enc_data = g.enc_data) :
    load_wallet c f password = load_wallet c g password := by
  rw [load_wallet, load_wallet, hsalt, henc]

/-- C9 witness: two files differing only in the address field. -/
theorem c9_address_field_ignored_witness :
    (WalletFile.mk 0 [1] [2]).address ≠ (WalletFile.mk 77 [1] [2]).address ∧
    load_wallet idCrypto (WalletFile.mk 0 [1] [2]) [5] =
      load_wallet idCrypto (WalletFile.mk 77 [1] [2]) [5] :=
  ⟨by decide, c9_address_field_ignored idCrypto (WalletFile.mk 0 [1] [2])
    (WalletFile.mk 77 [1] [2]) [5] rfl rfl⟩

/-- C10: decrypt can fail with an error other than the IntegrityError:
whenever the base64 decoding of the blob is exactly one AES block, the
ciphertext part is empty, so reading the padding length from data[-1] is
an out-of-range access on an empty byte string - the IndexError - and
not the "Incorrect Key" padding ValueError. -/
theorem c10_one_block_index_error (c : CryptoPrims) (blob key d : List Nat)
    (hd : b64decode blob = some d) (hlen : d.length = 16) :
    decrypt c blob key = Except.error DecryptError.emptyData ∧
    DecryptError.emptyData ≠ DecryptError.incorrectKey := by
  refine ⟨?_, by decide⟩
  rw [decrypt, hd]
  show decryptBytes c key d = Except.error DecryptError.emptyData
  rw [decryptBytes, if_neg (by omega), if_neg (by omega)]
  have hdrop : d.drop 16 = [] := List.drop_eq_nil_of_le (by omega)
  simp only [hdrop]
  rfl

/-- C10 witness: a concrete 24-character blob decoding to 16 zero bytes. -/
theorem c10_one_block_index_error_witness :
    b64decode (b64encode (List.replicate 16 0)) = some (List.replicate 16 0) ∧
    (List.replicate 16 0 : List Nat).length = 16 ∧
    decrypt idCrypto (b64encode (List.replicate 16 0)) [9] =
      Except.error DecryptError.emptyData :=
  ⟨by rfl, by decide,
   (c10_one_block_index_error idCrypto (b64encode (List.replicate 16 0)) [9]
     (List.replicate 16 0) (by rfl) (by decide)).1⟩

end GUMarket
